import Mathlib

/-!
Shallow embedding of the numeric core of the `ppu-uniface` face pipeline:
cosine verification (`CosineVerification.compare`), anchor generation,
box decoding, non-maximum suppression, largest-face selection, the
initialization guards, and the spoof-fusion postprocessing.

JavaScript numbers are modelled as exact rationals; where a computation can
produce IEEE NaN (an out-of-range typed-array read propagating through
arithmetic), numbers are modelled as `Option ℚ` with `none` standing for NaN.
`Math.sqrt` and `Math.exp` are taken as parameters (arbitrary functions
`ℚ → ℚ`), constrained in theorems only by facts true of their IEEE
counterparts (`sqrt q > 0` for `q > 0`, `exp q > 0`, `exp 0 = 1`).
-/

/-- A JS number in contexts where NaN can arise: `none` is NaN. -/

abbrev JsNum := Option ℚ

/-- JS addition: NaN propagates. -/

def jsAdd : JsNum → JsNum → JsNum
  | some a, some b => some (a + b)
  | _, _ => none

/-- JS multiplication: NaN propagates.  (`undefined * x` is also NaN, which is
why an out-of-range `Float32Array` read is modelled directly as `none`.) -/

def jsMul : JsNum → JsNum → JsNum
  | some a, some b => some (a * b)
  | _, _ => none

/-- JS division as used in `compare`: NaN propagates.  A zero divisor would be
`±Infinity`/NaN in JS; in `compare` the divisor is a product of square roots of
sums of squares that were checked nonzero, so under the square-root positivity
hypothesis carried by every theorem the zero-divisor branch is unreachable and
is mapped to `none`. -/

def jsDiv : JsNum → JsNum → JsNum
  | some a, some b => if b = 0 then none else some (a / b)
  | _, _ => none

/-- JS `x >= y`: false whenever either side is NaN. -/

def jsGE : JsNum → JsNum → Bool
  | some a, some b => decide (b ≤ a)
  | _, _ => false

/-- JS `x === 0`: false for NaN. -/

def jsEqZero : JsNum → Bool
  | some a => decide (a = 0)
  | none => false

/-- `Math.sqrt` lifted to possibly-NaN inputs; negative input gives NaN. -/

def jsSqrt (sqrt : ℚ → ℚ) : JsNum → JsNum
  | some a => if a < 0 then none else some (sqrt a)
  | none => none

/-- Result record of `CosineVerification.compare`
(`src/verification/base.interface.ts`). -/

structure VerificationResult where
  similarity : JsNum
  threshold : ℚ
  verified : Bool
deriving DecidableEq

/-- The model-level default threshold `verificationOptions.threshold = 0.7`
of `CosineVerification`. -/

def defaultThreshold : ℚ := 7 / 10

/-- The single-pass accumulation loop of `compare`:
`for (let i = 0; i < embedding1.length; i++)` updating
`(dotProduct, normA, normB)`.  The loop is driven by `embedding1`; the read
`embedding2[i]` is `e2.head?` of the remaining suffix, `undefined` (NaN,
modelled `none`) once `e2` is exhausted, exactly as in JS. -/

def compareLoop (acc : JsNum × JsNum × JsNum) : List ℚ → List ℚ → JsNum × JsNum × JsNum
  | [], _ => acc
  | a :: e1, e2 =>
      compareLoop
        (jsAdd acc.1 (jsMul (some a) e2.head?),
         jsAdd acc.2.1 (jsMul (some a) (some a)),
         jsAdd acc.2.2 (jsMul e2.head? e2.head?))
        e1 e2.tail

/-- `CosineVerification.compare` (`src/verification/cosine.ver.ts`).
`sqrt` abstracts `Math.sqrt`; `optsThreshold` is the instance's configured
`verificationOptions.threshold`; `threshold?` the optional per-call override
(`threshold ?? this.verificationOptions.threshold`). -/

def CosineVerification.compare (sqrt : ℚ → ℚ) (optsThreshold : ℚ) (e1 e2 : List ℚ)
    (threshold? : Option ℚ) : VerificationResult :=
  let effectiveThreshold := threshold?.getD optsThreshold
  let acc := compareLoop (some 0, some 0, some 0) e1 e2
  let dotProduct := acc.1
  let normA := acc.2.1
  let normB := acc.2.2
  if jsEqZero normA || jsEqZero normB then
    { similarity := some 0, threshold := effectiveThreshold, verified := false }
  else
    let similarity := jsDiv dotProduct (jsMul (jsSqrt sqrt normA) (jsSqrt sqrt normB))
    { similarity := similarity
      threshold := effectiveThreshold
      verified := jsGE similarity (some effectiveThreshold) }

/-- Mathematical sum of squares of a vector (the square of its L2 norm). -/

def sumSq (e : List ℚ) : ℚ := (e.map (fun x => x * x)).sum

/-- Mathematical dot product over the common prefix. -/

def dotProd (e1 e2 : List ℚ) : ℚ := ((e1.zip e2).map (fun p => p.1 * p.2)).sum

/-- `Math.ceil(dim / step)` on natural inputs, as in `generateAnchors`. -/

def natCeilDiv (a b : ℕ) : ℕ := (⌈(a : ℚ) / (b : ℚ)⌉).toNat

/-- The fixed feature-map strides of `BaseDetection.generateAnchors`. -/

def steps : List ℕ := [8, 16, 32]

/-- The two candidate box sizes per stride in `generateAnchors`. -/

def minSizes : List (List ℕ) := [[16, 32], [64, 128], [256, 512]]

/-- `BaseDetection.generateAnchors` (`src/detection/base.interface.ts`):
produces the flat list `[cx, cy, s_kx, s_ky, ...]`, looping `k` over the three
feature maps, `i` over grid rows, `j` over grid columns, with the two
`minSize` variants innermost; `imageSize = [height, width]`. -/

def generateAnchors (height width : ℕ) : List ℚ :=
  (List.range steps.length).flatMap fun k =>
    let step := steps.getD k 0
    let mapHeight := natCeilDiv height step
    let mapWidth := natCeilDiv width step
    (List.range mapHeight).flatMap fun i =>
      (List.range mapWidth).flatMap fun j =>
        (minSizes.getD k []).flatMap fun minSize =>
          [((j : ℚ) + 1 / 2) * (step : ℚ) / (width : ℚ),
           ((i : ℚ) + 1 / 2) * (step : ℚ) / (height : ℚ),
           (minSize : ℚ) / (width : ℚ),
           (minSize : ℚ) / (height : ℚ)]

/-- A prior box in center form (the spec's `Prior` data model). -/

structure Anchor where
  cx : ℚ
  cy : ℚ
  w : ℚ
  h : ℚ
deriving DecidableEq

/-- The anchor grid exactly as the claim words it: for each stride `s` with
its two box sizes, one anchor per cell `(i, j)` of the
`ceil(height/s) × ceil(width/s)` grid and per box size, with center
`((j+0.5)·s/width, (i+0.5)·s/height)` and size
`(boxSize/width, boxSize/height)`, in feature-map-major, then row-major, then
column-major, then size-variant order. -/

def anchorsSpec (height width : ℕ) : List Anchor :=
  ([(8, 16, 32), (16, 64, 128), (32, 256, 512)] : List (ℕ × ℕ × ℕ)).flatMap
    fun s =>
      (List.range (natCeilDiv height s.1)).flatMap fun i =>
        (List.range (natCeilDiv width s.1)).flatMap fun j =>
          [s.2.1, s.2.2].map fun boxSize =>
            { cx := ((j : ℚ) + 1 / 2) * (s.1 : ℚ) / (width : ℚ)
              cy := ((i : ℚ) + 1 / 2) * (s.1 : ℚ) / (height : ℚ)
              w := (boxSize : ℚ) / (width : ℚ)
              h := (boxSize : ℚ) / (height : ℚ) }

/-- `BaseDetection.decodeBoxes` (`src/detection/base.interface.ts`): walks the
flat `loc` and `priors` buffers four entries per prior (`idx = i * 4`),
computing `cx = p_cx + l_dx·v0·p_w`, `cy = p_cy + l_dy·v0·p_h`,
`w = p_w·exp(l_dw·v1)`, `h = p_h·exp(l_dh·v1)`, and emitting the corner form
`[cx - w/2, cy - h/2, cx + w/2, cy + h/2]`.  `mexp` abstracts `Math.exp`;
the source's default variances are `v0 = 0.1`, `v1 = 0.2`.  The buffers are
walked in lockstep (the source precondition is equal shapes,
`numPriors = loc.length / 4`). -/

def decodeBoxes (mexp : ℚ → ℚ) (v0 v1 : ℚ) : List ℚ → List ℚ → List ℚ
  | lx :: ly :: lw :: lh :: loc, px :: py :: pw :: ph :: priors =>
      let cx := px + lx * v0 * pw
      let cy := py + ly * v0 * ph
      let w := pw * mexp (lw * v1)
      let h := ph * mexp (lh * v1)
      (cx - w / 2) :: (cy - h / 2) :: (cx + w / 2) :: (cy + h / 2) ::
        decodeBoxes mexp v0 v1 loc priors
  | _, _ => []

/-- Each prior `{cx, cy, w, h}` in corner form
`(cx - w/2, cy - h/2, cx + w/2, cy + h/2)` — the output the claim expects for
a zero regression vector. -/

def priorCorners : List ℚ → List ℚ
  | px :: py :: pw :: ph :: priors =>
      (px - pw / 2) :: (py - ph / 2) :: (px + pw / 2) :: (py + ph / 2) ::
        priorCorners priors
  | _ => []

/-- One detection row `[x1, y1, x2, y2, score]` of the flat `dets` buffer
passed to `BaseDetection.nonMaximumSuppression`. -/

structure Det where
  x1 : ℚ
  y1 : ℚ
  x2 : ℚ
  y2 : ℚ
  score : ℚ
deriving DecidableEq

/-- `areas[i] = (x2[i] - x1[i]) * (y2[i] - y1[i])`. -/

def detArea (d : Det) : ℚ := (d.x2 - d.x1) * (d.y2 - d.y1)

/-- Intersection area of two rows:
`w = max(0, xx2 - xx1)`, `h = max(0, yy2 - yy1)`, `inter = w * h`. -/

def interArea (a b : Det) : ℚ :=
  max 0 (min a.x2 b.x2 - max a.x1 b.x1) * max 0 (min a.y2 b.y2 - max a.y1 b.y1)

/-- The suppression test of the source's inner loop:
`iou = inter / (areas[i] + areas[j] - inter); if (iou > threshold) suppress`.
The source has no guard on the denominator; when it is zero the numerator is
zero as well (`interArea_eq_zero_of_denom_eq_zero` below), the JS quotient is
`0/0 = NaN`, and `NaN > threshold` is false — rendered here as an explicit
`false` branch. -/

def iouSuppresses (a b : Det) (threshold : ℚ) : Bool :=
  let inter := interArea a b
  let denom := detArea a + detArea b - inter
  if denom = 0 then false else decide (inter / denom > threshold)

/-- IoU as the spec defines it, with the zero-denominator case taken as 0
(the spec: zero-area boxes yield IoU 0; guard the shared-area division). -/

def iou (a b : Det) : ℚ :=
  let inter := interArea a b
  let denom := detArea a + detArea b - inter
  if denom = 0 then 0 else inter / denom

/-- Stable insertion into a score-descending list: `a` is placed before the
first entry whose score does not exceed `a`'s, so among equal scores earlier
indices stay first — the behavior of the ES2019-stable
`order.sort((a, b) => scores[b] - scores[a])` on the identity permutation. -/

def insertDesc (score : ℕ → ℚ) (a : ℕ) : List ℕ → List ℕ
  | [] => [a]
  | b :: l => if score a ≥ score b then a :: b :: l else b :: insertDesc score a l

/-- Stable sort by score descending. -/

def sortDesc (score : ℕ → ℚ) : List ℕ → List ℕ
  | [] => []
  | a :: l => insertDesc score a (sortDesc score l)

/-- The inner loop `for (const j of order)`: every `j` with `j ≠ i`, not yet
suppressed, and `test i j` is added to the suppressed list. -/

def nmsMark (test : ℕ → ℕ → Bool) (i : ℕ) : List ℕ → List ℕ → List ℕ
  | [], suppressed => suppressed
  | j :: order, suppressed =>
      if i = j ∨ j ∈ suppressed then nmsMark test i order suppressed
      else if test i j then nmsMark test i order (j :: suppressed)
      else nmsMark test i order suppressed

/-- The outer loop `for (const i of order)`: skip suppressed indices, keep the
rest, and after keeping `i` run the inner marking loop over the whole order. -/

def nmsLoop (test : ℕ → ℕ → Bool) (order : List ℕ) :
    List ℕ → List ℕ → List ℕ
  | [], _ => []
  | i :: rem, suppressed =>
      if i ∈ suppressed then nmsLoop test order rem suppressed
      else i :: nmsLoop test order rem (nmsMark test i order suppressed)

/-- `BaseDetection.nonMaximumSuppression` (`src/detection/base.interface.ts`),
on the structured rows of the flat `dets` buffer: sort indices by score
descending (stably), then run the greedy suppression loops. -/

def nonMaximumSuppression (dets : List Det) (threshold : ℚ) : List ℕ :=
  let get := fun i => dets.getD i ⟨0, 0, 0, 0, 0⟩
  let order := sortDesc (fun i => (get i).score) (List.range dets.length)
  nmsLoop (fun i j => iouSuppresses (get i) (get j) threshold) order order []

/-- Classic greedy NMS exactly as the claim words it: indices are visited in
descending score order; a visited index not yet suppressed is kept, and every
other not-yet-suppressed index whose IoU with the kept box is strictly greater
than the threshold is suppressed (at exactly the threshold it is kept). -/

def greedyStep (iouGT : ℕ → ℕ → Bool) (order : List ℕ) :
    List ℕ → List ℕ → List ℕ
  | [], _ => []
  | i :: rem, suppressed =>
      if i ∈ suppressed then greedyStep iouGT order rem suppressed
      else i :: greedyStep iouGT order rem
        (suppressed ++ (order.filter fun j =>
          decide (¬ j ∈ suppressed) && decide (j ≠ i) && iouGT i j))

/-- Reference greedy NMS built from the claim's description. -/

def greedyNMS (dets : List Det) (threshold : ℚ) : List ℕ :=
  let get := fun i => dets.getD i ⟨0, 0, 0, 0, 0⟩
  let order := sortDesc (fun i => (get i).score) (List.range dets.length)
  greedyStep (fun i j => decide (iou (get i) (get j) > threshold)) order order []

/-- One decoded box row `[x1, y1, x2, y2]` of `result.boxes` in
`RetinaNetDetection.detect`. -/

structure Box4 where
  x1 : ℚ
  y1 : ℚ
  x2 : ℚ
  y2 : ℚ
deriving DecidableEq

/-- `area = (x2 - x1) * (y2 - y1)` as computed in `detect`'s selection loop. -/

def boxArea (b : Box4) : ℚ := (b.x2 - b.x1) * (b.y2 - b.y1)

/-- The largest-face scan of `RetinaNetDetection.detect`
(`src/detection/retinanet.det.ts`): `largestIdx = 0; largestArea = 0;`
then for each `i`, update both when `area > largestArea` (strict). -/

def findLargestLoop : List ℚ → ℕ → ℕ → ℚ → ℕ
  | [], _, bestIdx, _ => bestIdx
  | a :: areas, i, bestIdx, bestArea =>
      if a > bestArea then findLargestLoop areas (i + 1) i a
      else findLargestLoop areas (i + 1) bestIdx bestArea

/-- The selected index for a list of survivor areas. -/

def largestIdx (areas : List ℚ) : ℕ := findLargestLoop areas 0 0 0

/-- `multipleFaces = numDetections > 1` in `detect`. -/

def multipleFaces (numDetections : ℕ) : Bool := decide (numDetections > 1)

/-- A minimal fragment of JS values for the initialization guards: the operand
of `!` in `if (!this.isInitialized) throw ...` is either a function object
(the uncalled method reference, as written in the source) or the boolean the
call would have produced. -/

inductive JsVal where
  | function
  | boolean (b : Bool)
deriving DecidableEq

/-- JS truthiness: a function object is always truthy. -/

def jsTruthy : JsVal → Bool
  | JsVal.function => true
  | JsVal.boolean b => b

/-- The guard actually evaluated by `RetinaNetDetection.detect`
(`src/detection/retinanet.det.ts`) and `SpoofingDetection.analyze`
(`src/analysis/spoofing.ana.ts`): both read `if (!this.isInitialized)`,
referencing the `isInitialized` method WITHOUT calling it, so the tested
value is a function object whatever the session state is. -/

def initGuardFires (_sessionSet : Bool) : Bool := !jsTruthy JsVal.function

/-- The check the guard was meant to perform: `isInitialized()` returns
`session !== null` (`BaseDetection.isInitialized`), resp.
`firstSession !== null && secondSession !== null`
(`SpoofingDetection.isInitialized`). -/

def isInitialized (sessionSet : Bool) : Bool := sessionSet

/-- A 3-way logit/probability vector (two fake classes and the real class at
index 1), as consumed by `SpoofingDetection.postprocess`. -/

structure Vec3 where
  x0 : ℚ
  x1 : ℚ
  x2 : ℚ
deriving DecidableEq

/-- `SpoofingDetection.softmax` (`src/analysis/spoofing.ana.ts`), specialized
to the 3-way vectors `postprocess` feeds it: subtract the per-vector maximum,
exponentiate, normalize by the sum.  `mexp` abstracts `Math.exp`. -/

def softmax (mexp : ℚ → ℚ) (v : Vec3) : Vec3 :=
  let m := max v.x0 (max v.x1 v.x2)
  let e0 := mexp (v.x0 - m)
  let e1 := mexp (v.x1 - m)
  let e2 := mexp (v.x2 - m)
  let sumExps := e0 + e1 + e2
  ⟨e0 / sumExps, e1 / sumExps, e2 / sumExps⟩

/-- Result record of `SpoofingDetection.postprocess`. -/

structure SpoofingResult where
  real : Bool
  score : ℚ
  realness : ℚ
  fakeness : ℚ
deriving DecidableEq

/-- `SpoofingDetection.postprocess`: softmax each model's 3-way logits,
average element-wise (`prediction[i]/2`), take the argmax with a strict
`>` scan starting at index 0 (first maximum wins), `real = (maxIdx === 1)`,
`realness = probabilities[1]`, `fakeness = probabilities[0] + probabilities[2]`,
`score = real ? realness : fakeness`. -/

def postprocess (mexp : ℚ → ℚ) (l1 l2 : Vec3) : SpoofingResult :=
  let p := softmax mexp l1
  let q := softmax mexp l2
  let pr0 := (p.x0 + q.x0) / 2
  let pr1 := (p.x1 + q.x1) / 2
  let pr2 := (p.x2 + q.x2) / 2
  let maxIdx : ℕ :=
    if pr1 > pr0 then (if pr2 > pr1 then 2 else 1)
    else (if pr2 > pr0 then 2 else 0)
  let isReal := maxIdx == 1
  { real := isReal
    score := if isReal then pr1 else pr0 + pr2
    realness := pr1
    fakeness := pr0 + pr2 }

theorem sumSq_nonneg (e : List ℚ) : 0 ≤ sumSq e := by
  induction e with
  | nil => simp [sumSq]
  | cons a e ih =>
      simp only [sumSq, List.map_cons, List.sum_cons]
      have : 0 ≤ a * a := mul_self_nonneg a
      simpa [sumSq] using add_nonneg this ih

theorem compareLoop_of_le (e1 : List ℚ) :
    ∀ (e2 : List ℚ) (d na nb : ℚ), e1.length ≤ e2.length →
    compareLoop (some d, some na, some nb) e1 e2 =
      (some (d + dotProd e1 e2), some (na + sumSq e1),
       some (nb + sumSq (e2.take e1.length))) := by
  induction e1 with
  | nil => intro e2 d na nb _; simp [compareLoop, dotProd, sumSq]
  | cons a e1 ih =>
      intro e2 d na nb hlen
      cases e2 with
      | nil => simp at hlen
      | cons b e2 =>
          simp only [List.length_cons, Nat.succ_le_succ_iff] at hlen
          simp only [compareLoop, List.head?_cons, List.tail_cons, jsAdd, jsMul]
          rw [ih e2 (d + a * b) (na + a * a) (nb + b * b) hlen]
          simp [dotProd, sumSq, List.take_succ_cons]
          refine ⟨by ring, by ring, by ring⟩

theorem compareLoop_tail_nan (e1 : List ℚ) :
    ∀ (na : ℚ), compareLoop (none, some na, none) e1 [] =
      (none, some (na + sumSq e1), none) := by
  induction e1 with
  | nil => intro na; simp [compareLoop, sumSq]
  | cons a e1 ih =>
      intro na
      simp only [compareLoop, List.head?_nil, List.tail_nil, jsAdd, jsMul]
      rw [ih (na + a * a)]
      simp [sumSq]
      ring

theorem compareLoop_of_shorter (e1 : List ℚ) :
    ∀ (e2 : List ℚ) (d na nb : ℚ), e2.length < e1.length →
    compareLoop (some d, some na, some nb) e1 e2 =
      (none, some (na + sumSq e1), none) := by
  induction e1 with
  | nil => intro e2 d na nb h; simp at h
  | cons a e1 ih =>
      intro e2 d na nb hlen
      cases e2 with
      | nil =>
          simp only [compareLoop, List.head?_nil, List.tail_nil, jsAdd, jsMul]
          rw [compareLoop_tail_nan e1 (na + a * a)]
          simp [sumSq]
          ring
      | cons b e2 =>
          simp only [List.length_cons, Nat.succ_lt_succ_iff] at hlen
          simp only [compareLoop, List.head?_cons, List.tail_cons, jsAdd, jsMul]
          rw [ih e2 (d + a * b) (na + a * a) (nb + b * b) hlen]
          simp [sumSq]
          ring

theorem zip_take_right (e1 : List ℚ) :
    ∀ e2 : List ℚ, e1.zip (e2.take e1.length) = e1.zip e2 := by
  induction e1 with
  | nil => intro e2; simp
  | cons a e1 ih =>
      intro e2
      cases e2 with
      | nil => simp
      | cons b e2 => simp [List.zip_cons_cons, ih e2]

theorem compare_eq_of_norms_ne_zero (sqrt : ℚ → ℚ) (optsThreshold : ℚ)
    (e1 e2 : List ℚ) (threshold? : Option ℚ)
    (hlen : e1.length = e2.length)
    (h1 : sumSq e1 ≠ 0) (h2 : sumSq e2 ≠ 0)
    (hden : sqrt (sumSq e1) * sqrt (sumSq e2) ≠ 0) :
    CosineVerification.compare sqrt optsThreshold e1 e2 threshold? =
      { similarity := some (dotProd e1 e2 / (sqrt (sumSq e1) * sqrt (sumSq e2)))
        threshold := threshold?.getD optsThreshold
        verified := decide (threshold?.getD optsThreshold
          ≤ dotProd e1 e2 / (sqrt (sumSq e1) * sqrt (sumSq e2))) } := by
  have hloop : compareLoop (some 0, some 0, some 0) e1 e2 =
      (some (dotProd e1 e2), some (sumSq e1), some (sumSq e2)) := by
    have h := compareLoop_of_le e1 e2 0 0 0 hlen.le
    rw [hlen, List.take_length] at h
    simpa using h
  have hguard : (jsEqZero (some (sumSq e1)) || jsEqZero (some (sumSq e2))) = false := by
    simp [jsEqZero, h1, h2]
  have hnl1 : ¬ sumSq e1 < 0 := not_lt.2 (sumSq_nonneg e1)
  have hnl2 : ¬ sumSq e2 < 0 := not_lt.2 (sumSq_nonneg e2)
  simp only [CosineVerification.compare, hloop, hguard, Bool.false_eq_true, if_false,
    jsSqrt, if_neg hnl1, if_neg hnl2, jsMul, jsDiv, if_neg hden, jsGE]

/-- C1: for equal-length embeddings with both (squared) norms nonzero,
`compare` returns `threshold` equal to the effective threshold (the caller
override if present, else the configured default 0.7), `similarity` equal to
the cosine similarity `dot/(√normA·√normB)`, and `verified = true` iff the
similarity is `≥` the effective threshold (inclusive comparison). -/
theorem compare_verified_iff_threshold (sqrt : ℚ → ℚ)
    (hsqrt : ∀ q : ℚ, 0 < q → 0 < sqrt q)
    (e1 e2 : List ℚ) (threshold? : Option ℚ)
    (hlen : e1.length = e2.length)
    (h1 : sumSq e1 ≠ 0) (h2 : sumSq e2 ≠ 0) :
    (CosineVerification.compare sqrt defaultThreshold e1 e2 threshold?).threshold
        = threshold?.getD defaultThreshold ∧
    (CosineVerification.compare sqrt defaultThreshold e1 e2 threshold?).similarity
        = some (dotProd e1 e2 / (sqrt (sumSq e1) * sqrt (sumSq e2))) ∧
    ((CosineVerification.compare sqrt defaultThreshold e1 e2 threshold?).verified = true ↔
      threshold?.getD defaultThreshold
        ≤ dotProd e1 e2 / (sqrt (sumSq e1) * sqrt (sumSq e2))) := by
  have hA : 0 < sumSq e1 := lt_of_le_of_ne (sumSq_nonneg e1) (Ne.symm h1)
  have hB : 0 < sumSq e2 := lt_of_le_of_ne (sumSq_nonneg e2) (Ne.symm h2)
  have hden : sqrt (sumSq e1) * sqrt (sumSq e2) ≠ 0 :=
    (mul_pos (hsqrt _ hA) (hsqrt _ hB)).ne'
  rw [compare_eq_of_norms_ne_zero sqrt defaultThreshold e1 e2 threshold? hlen h1 h2 hden]
  refine ⟨rfl, rfl, by simp⟩

theorem compare_verified_iff_threshold_witness :
    (CosineVerification.compare id defaultThreshold [1] [2] none).threshold
        = none.getD defaultThreshold ∧
    (CosineVerification.compare id defaultThreshold [1] [2] none).similarity
        = some (dotProd [1] [2] / (id (sumSq [1]) * id (sumSq [2]))) ∧
    ((CosineVerification.compare id defaultThreshold [1] [2] none).verified = true ↔
      none.getD defaultThreshold
        ≤ dotProd [1] [2] / (id (sumSq [1]) * id (sumSq [2]))) :=
  compare_verified_iff_threshold id (fun _ hq => hq) [1] [2] none rfl
    (by norm_num [sumSq]) (by norm_num [sumSq])

/-- C2: for equal-length embedding pairs in which at least one vector has an
exactly zero L2 norm (equivalently a zero sum of squares; the empty pair
included), `compare` takes the zero-norm branch and returns
`similarity = 0` exactly and `verified = false` — the division is never
reached, so no division by zero occurs and nothing is thrown. -/
theorem compare_zero_norm (sqrt : ℚ → ℚ) (optsThreshold : ℚ)
    (e1 e2 : List ℚ) (threshold? : Option ℚ)
    (hlen : e1.length = e2.length)
    (h : sumSq e1 = 0 ∨ sumSq e2 = 0) :
    CosineVerification.compare sqrt optsThreshold e1 e2 threshold? =
      { similarity := some 0
        threshold := threshold?.getD optsThreshold
        verified := false } := by
  have hloop : compareLoop (some 0, some 0, some 0) e1 e2 =
      (some (dotProd e1 e2), some (sumSq e1), some (sumSq e2)) := by
    have hh := compareLoop_of_le e1 e2 0 0 0 hlen.le
    rw [hlen, List.take_length] at hh
    simpa using hh
  have hguard : (jsEqZero (some (sumSq e1)) || jsEqZero (some (sumSq e2))) = true := by
    rcases h with h | h <;> simp [jsEqZero, h]
  simp only [CosineVerification.compare, hloop, hguard, if_true]

theorem compare_zero_norm_witness :
    CosineVerification.compare id defaultThreshold [0, 0] [3, 4] none =
      { similarity := some 0
        threshold := none.getD defaultThreshold
        verified := false } :=
  compare_zero_norm id defaultThreshold [0, 0] [3, 4] none rfl
    (Or.inl (by norm_num [sumSq]))

/-- C3 counterexample: `compare` contains no length check and no throw
statement at all (its translation is a total function); on the mismatched
pair `[1,2]` vs `[1]` it returns an ordinary `VerificationResult` — with NaN
similarity — instead of raising a fatal input error. -/
theorem compare_mismatched_returns_result :
    CosineVerification.compare id defaultThreshold [1, 2] [1] none =
      { similarity := none, threshold := 7 / 10, verified := false } := by
  have hloop : compareLoop (some 0, some 0, some 0) [1, 2] [1] =
      (none, some 5, none) := by
    have h := compareLoop_of_shorter [1, 2] [1] 0 0 0 (by norm_num)
    rw [h]
    norm_num [sumSq]
  simp [CosineVerification.compare, hloop, jsEqZero, jsSqrt, jsMul, jsDiv, jsGE,
    defaultThreshold]

/-- C3 amended: `compare` never validates lengths.  When `embedding2` is
shorter than `embedding1` (and `embedding1` is not all zeros), the
out-of-range reads poison the sums with NaN and a `VerificationResult` with
`similarity = NaN` and `verified = false` is returned — nothing is thrown.
When `embedding2` is at least as long, the extra components of `embedding2`
are silently ignored: the result is exactly that of comparing against the
truncation of `embedding2` to `embedding1`'s length. -/
theorem compare_no_length_check :
    (∀ (sqrt : ℚ → ℚ) (optsThreshold : ℚ) (e1 e2 : List ℚ) (threshold? : Option ℚ),
      e2.length < e1.length → sumSq e1 ≠ 0 →
      CosineVerification.compare sqrt optsThreshold e1 e2 threshold? =
        { similarity := none, threshold := threshold?.getD optsThreshold,
          verified := false }) ∧
    (∀ (sqrt : ℚ → ℚ) (optsThreshold : ℚ) (e1 e2 : List ℚ) (threshold? : Option ℚ),
      e1.length ≤ e2.length →
      CosineVerification.compare sqrt optsThreshold e1 e2 threshold? =
        CosineVerification.compare sqrt optsThreshold e1 (e2.take e1.length) threshold?) := by
  constructor
  · intro sqrt optsThreshold e1 e2 threshold? hlt h1
    have hloop : compareLoop (some 0, some 0, some 0) e1 e2 =
        (none, some (sumSq e1), none) := by
      have h := compareLoop_of_shorter e1 e2 0 0 0 hlt
      rw [h]
      norm_num
    have hguard : (jsEqZero (some (sumSq e1)) || jsEqZero (none : JsNum)) = false := by
      simp [jsEqZero, h1]
    simp only [CosineVerification.compare, hloop, hguard, Bool.false_eq_true, if_false,
      jsSqrt, jsMul, jsDiv, jsGE]
  · intro sqrt optsThreshold e1 e2 threshold? hle
    have hlen2 : (e2.take e1.length).length = e1.length := by
      simp [List.length_take, Nat.min_eq_left hle]
    have hloopL : compareLoop (some 0, some 0, some 0) e1 e2 =
        (some (dotProd e1 e2), some (sumSq e1), some (sumSq (e2.take e1.length))) := by
      have h := compareLoop_of_le e1 e2 0 0 0 hle
      rw [h]
      norm_num
    have hloopR : compareLoop (some 0, some 0, some 0) e1 (e2.take e1.length) =
        (some (dotProd e1 e2), some (sumSq e1), some (sumSq (e2.take e1.length))) := by
      have h := compareLoop_of_le e1 (e2.take e1.length) 0 0 0 (le_of_eq hlen2.symm)
      rw [h]
      have hz : dotProd e1 (e2.take e1.length) = dotProd e1 e2 := by
        simp [dotProd, zip_take_right]
      have ht : (e2.take e1.length).take e1.length = e2.take e1.length := by
        simp [List.take_take]
      rw [hz, ht]
      norm_num
    simp only [CosineVerification.compare, hloopL, hloopR]

theorem compare_no_length_check_witness :
    (CosineVerification.compare id (7 / 10) [1, 2] [1] none =
      { similarity := none, threshold := none.getD (7 / 10), verified := false }) ∧
    (CosineVerification.compare id (7 / 10) [3] [3, 4] none =
      CosineVerification.compare id (7 / 10) [3] ([3, 4].take [3].length) none) :=
  ⟨compare_no_length_check.1 id (7 / 10) [1, 2] [1] none (by norm_num)
      (by norm_num [sumSq]),
   compare_no_length_check.2 id (7 / 10) [3] [3, 4] none (by norm_num)⟩

theorem length_flatMap_of_const {α β : Type} (l : List α) (f : α → List β) (c : ℕ)
    (h : ∀ a ∈ l, (f a).length = c) : (l.flatMap f).length = l.length * c := by
  induction l with
  | nil => simp
  | cons a l ih =>
      simp only [List.flatMap_cons, List.length_append, List.length_cons]
      rw [h a (List.mem_cons_self a l), ih (fun b hb => h b (List.mem_cons_of_mem a hb))]
      ring

theorem natCeilDiv_eq (a b : ℕ) (hb : 0 < b) :
    natCeilDiv a b = (a + b - 1) / b := by
  have hmod := Nat.div_add_mod (a + b - 1) b
  set n := (a + b - 1) / b with hn
  have hr : (a + b - 1) % b < b := Nat.mod_lt _ hb
  have hq : (0 : ℚ) < (b : ℚ) := by exact_mod_cast hb
  have key1 : b * n + 1 ≤ a + b := by omega
  have key2 : a ≤ b * n := by omega
  have key1q : (b : ℚ) * n + 1 ≤ (a : ℚ) + b := by exact_mod_cast key1
  have key2q : (a : ℚ) ≤ (b : ℚ) * n := by exact_mod_cast key2
  have hceil : ⌈(a : ℚ) / (b : ℚ)⌉ = (n : ℤ) := by
    rw [Int.ceil_eq_iff]
    constructor
    · rw [lt_div_iff₀ hq]
      push_cast
      nlinarith
    · rw [div_le_iff₀ hq]
      push_cast
      nlinarith
  rw [natCeilDiv, hceil, Int.toNat_natCast]

/-- C7: `generateAnchors` emits exactly the anchors of `anchorsSpec` (same
values, same order, flattened four components per anchor); the anchor count is
the sum over the three strides of `gridH × gridW × 2`; and for a 320×320 input
that count is `Σ ceil(320/s)² · 2 = 4200`. -/
theorem generateAnchors_matches_spec (height width : ℕ) :
    generateAnchors height width =
      (anchorsSpec height width).flatMap (fun a => [a.cx, a.cy, a.w, a.h]) ∧
    (anchorsSpec height width).length =
      natCeilDiv height 8 * natCeilDiv width 8 * 2
        + natCeilDiv height 16 * natCeilDiv width 16 * 2
        + natCeilDiv height 32 * natCeilDiv width 32 * 2 ∧
    (anchorsSpec 320 320).length =
      natCeilDiv 320 8 ^ 2 * 2 + natCeilDiv 320 16 ^ 2 * 2
        + natCeilDiv 320 32 ^ 2 * 2 ∧
    (anchorsSpec 320 320).length = 4200 := by
  have hst : ∀ (hh ww s b1 b2 : ℕ),
      (((List.range (natCeilDiv hh s)).flatMap fun i =>
          (List.range (natCeilDiv ww s)).flatMap fun j =>
            [b1, b2].map fun boxSize =>
              ({ cx := ((j : ℚ) + 1 / 2) * (s : ℚ) / (ww : ℚ)
                 cy := ((i : ℚ) + 1 / 2) * (s : ℚ) / (hh : ℚ)
                 w := (boxSize : ℚ) / (ww : ℚ)
                 h := (boxSize : ℚ) / (hh : ℚ) } : Anchor))).length
        = natCeilDiv hh s * natCeilDiv ww s * 2 := by
    intro hh ww s b1 b2
    rw [length_flatMap_of_const _ _ (natCeilDiv ww s * 2)
        (fun i _ => by
          rw [length_flatMap_of_const _ _ 2 (fun j _ => by simp),
            List.length_range]),
      List.length_range, Nat.mul_assoc]
  have hlen : ∀ hh ww : ℕ, (anchorsSpec hh ww).length =
      natCeilDiv hh 8 * natCeilDiv ww 8 * 2
        + natCeilDiv hh 16 * natCeilDiv ww 16 * 2
        + natCeilDiv hh 32 * natCeilDiv ww 32 * 2 := by
    intro hh ww
    simp only [anchorsSpec, List.flatMap_cons, List.flatMap_nil, List.append_nil,
      List.length_append]
    rw [hst hh ww 8 16 32, hst hh ww 16 64 128, hst hh ww 32 256 512]
    ring
  have h320a : natCeilDiv 320 8 = 40 := by rw [natCeilDiv_eq 320 8 (by norm_num)]
  have h320b : natCeilDiv 320 16 = 20 := by rw [natCeilDiv_eq 320 16 (by norm_num)]
  have h320c : natCeilDiv 320 32 = 10 := by rw [natCeilDiv_eq 320 32 (by norm_num)]
  refine ⟨?_, hlen height width, ?_, ?_⟩
  · simp [generateAnchors, anchorsSpec, steps, minSizes, List.flatMap_assoc,
      List.range_succ]
  · rw [hlen 320 320, h320a, h320b, h320c]
    norm_num
  · rw [hlen 320 320, h320a, h320b, h320c]

/-- C8: with an all-zero regression vector (and `exp 0 = 1`, exact also in
IEEE arithmetic), `decodeBoxes` returns every prior exactly in corner form. -/
theorem decodeBoxes_zero_loc (mexp : ℚ → ℚ) (hexp : mexp 0 = 1)
    (priors : List ℚ) :
    decodeBoxes mexp (1 / 10) (1 / 5) (List.replicate priors.length 0) priors =
      priorCorners priors := by
  induction priors using priorCorners.induct with
  | case1 px py pw ph rest ih =>
      simp only [List.length_cons, List.replicate_succ, decodeBoxes, priorCorners,
        zero_mul, mul_zero, add_zero, hexp, mul_one, ih]
  | case2 priors h =>
      rcases priors with _ | ⟨a, _ | ⟨b, _ | ⟨c, _ | ⟨d, rest⟩⟩⟩⟩
      · rfl
      · rfl
      · rfl
      · rfl
      · exact absurd rfl (h a b c d rest)

theorem decodeBoxes_zero_loc_witness :
    decodeBoxes (fun _ => 1) (1 / 10) (1 / 5)
        (List.replicate ([(1 : ℚ)/2, 1/2, 1/4, 1/4].length) 0)
        [(1 : ℚ)/2, 1/2, 1/4, 1/4] =
      priorCorners [(1 : ℚ)/2, 1/2, 1/4, 1/4] :=
  decodeBoxes_zero_loc (fun _ => 1) rfl [(1 : ℚ)/2, 1/2, 1/4, 1/4]

theorem interArea_nonneg (a b : Det) : 0 ≤ interArea a b :=
  mul_nonneg (le_max_left _ _) (le_max_left _ _)

theorem denom_pos_of_inter_pos (a b : Det) (h : 0 < interArea a b) :
    0 < detArea a + detArea b - interArea a b := by
  have hsplit := mul_pos_iff.1 h
  rcases hsplit with ⟨hx, hy⟩ | ⟨hx, _⟩
  · have hwx : 0 < min a.x2 b.x2 - max a.x1 b.x1 := by
      rcases lt_max_iff.1 hx with h0 | h0
      · exact absurd h0 (lt_irrefl 0)
      · exact h0
    have hwy : 0 < min a.y2 b.y2 - max a.y1 b.y1 := by
      rcases lt_max_iff.1 hy with h0 | h0
      · exact absurd h0 (lt_irrefl 0)
      · exact h0
    have hIA : interArea a b =
        (min a.x2 b.x2 - max a.x1 b.x1) * (min a.y2 b.y2 - max a.y1 b.y1) := by
      rw [interArea, max_eq_right hwx.le, max_eq_right hwy.le]
    have hax : min a.x2 b.x2 - max a.x1 b.x1 ≤ a.x2 - a.x1 :=
      sub_le_sub (min_le_left _ _) (le_max_left _ _)
    have hay : min a.y2 b.y2 - max a.y1 b.y1 ≤ a.y2 - a.y1 :=
      sub_le_sub (min_le_left _ _) (le_max_left _ _)
    have hbx : min a.x2 b.x2 - max a.x1 b.x1 ≤ b.x2 - b.x1 :=
      sub_le_sub (min_le_right _ _) (le_max_right _ _)
    have hby : min a.y2 b.y2 - max a.y1 b.y1 ≤ b.y2 - b.y1 :=
      sub_le_sub (min_le_right _ _) (le_max_right _ _)
    have hIa : interArea a b ≤ detArea a := by
      rw [hIA, detArea]
      exact mul_le_mul hax hay hwy.le (hwx.le.trans hax)
    have hIb : interArea a b ≤ detArea b := by
      rw [hIA, detArea]
      exact mul_le_mul hbx hby hwy.le (hwx.le.trans hbx)
    linarith
  · exact absurd hx (not_lt.2 (le_max_left 0 _))

theorem interArea_eq_zero_of_denom_eq_zero (a b : Det)
    (h : detArea a + detArea b - interArea a b = 0) : interArea a b = 0 := by
  rcases (interArea_nonneg a b).eq_or_lt with he | hl
  · exact he.symm
  · exact absurd h (denom_pos_of_inter_pos a b hl).ne'

theorem mem_nmsMark (test : ℕ → ℕ → Bool) (i : ℕ) :
    ∀ (order suppressed : List ℕ) (x : ℕ),
    x ∈ nmsMark test i order suppressed ↔
      x ∈ suppressed ∨
        (x ∈ order ∧ x ≠ i ∧ x ∉ suppressed ∧ test i x = true) := by
  intro order
  induction order with
  | nil => intro s x; simp [nmsMark]
  | cons j order ih =>
      intro s x
      by_cases hxj : x = j
      · subst hxj
        simp only [nmsMark]
        split
        · rename_i hij
          rw [ih]
          constructor
          · rintro (h | ⟨hx, hne, hns, ht⟩)
            · exact Or.inl h
            · exact Or.inr ⟨List.mem_cons_of_mem x hx, hne, hns, ht⟩
          · rintro (h | ⟨_, hne, hns, ht⟩)
            · exact Or.inl h
            · rcases hij with hij | hij
              · exact absurd hij.symm hne
              · exact absurd hij hns
        · rename_i hij
          push_neg at hij
          split
          · rename_i ht
            rw [ih]
            constructor
            · rintro (h | ⟨hx, hne, hns, htx⟩)
              · rcases List.mem_cons.1 h with h | h
                · exact Or.inr ⟨List.mem_cons_self x order,
                    fun he => hij.1 he.symm, hij.2, ht⟩
                · exact Or.inl h
              · exact Or.inr ⟨List.mem_cons_of_mem x hx, hne,
                  fun hc => hns (List.mem_cons_of_mem x hc), htx⟩
            · rintro (h | ⟨_, hne, hns, htx⟩)
              · exact Or.inl (List.mem_cons_of_mem x h)
              · exact Or.inl (List.mem_cons_self x s)
          · rename_i ht
            rw [ih]
            constructor
            · rintro (h | ⟨hx, hne, hns, htx⟩)
              · exact Or.inl h
              · exact Or.inr ⟨List.mem_cons_of_mem x hx, hne, hns, htx⟩
            · rintro (h | ⟨_, hne, hns, htx⟩)
              · exact Or.inl h
              · exact absurd htx (by simpa using ht)
      · simp only [nmsMark, List.mem_cons]
        split
        · rename_i hij
          rw [ih]
          constructor
          · rintro (h | ⟨hx, hne, hns, ht⟩)
            · exact Or.inl h
            · exact Or.inr ⟨Or.inr hx, hne, hns, ht⟩
          · rintro (h | ⟨hx | hx, hne, hns, ht⟩)
            · exact Or.inl h
            · exact absurd hx hxj
            · exact Or.inr ⟨hx, hne, hns, ht⟩
        · rename_i hij
          split
          · rw [ih]
            simp only [List.mem_cons]
            constructor
            · rintro ((h | h) | ⟨hx, hne, hns, ht⟩)
              · exact absurd h hxj
              · exact Or.inl h
              · refine Or.inr ⟨Or.inr hx, hne, fun hc => hns (Or.inr hc), ht⟩
            · rintro (h | ⟨hx | hx, hne, hns, ht⟩)
              · exact Or.inl (Or.inr h)
              · exact absurd hx hxj
              · refine Or.inr ⟨hx, hne, fun hc => ?_, ht⟩
                rcases hc with hc | hc
                · exact hxj hc
                · exact hns hc
          · rw [ih]
            constructor
            · rintro (h | ⟨hx, hne, hns, ht⟩)
              · exact Or.inl h
              · exact Or.inr ⟨Or.inr hx, hne, hns, ht⟩
            · rintro (h | ⟨hx | hx, hne, hns, ht⟩)
              · exact Or.inl h
              · exact absurd hx hxj
              · exact Or.inr ⟨hx, hne, hns, ht⟩

theorem mem_markSpec (test : ℕ → ℕ → Bool) (i : ℕ) (order s : List ℕ) (x : ℕ) :
    x ∈ s ++ (order.filter fun j => decide (¬ j ∈ s) && decide (j ≠ i) && test i j) ↔
      x ∈ s ∨ (x ∈ order ∧ x ≠ i ∧ x ∉ s ∧ test i x = true) := by
  simp only [List.mem_append, List.mem_filter, Bool.and_eq_true, decide_eq_true_eq]
  tauto

theorem nmsLoop_eq_greedyStep (test1 test2 : ℕ → ℕ → Bool)
    (hts : ∀ i j, test1 i j = test2 i j) (order : List ℕ) :
    ∀ (rem s1 s2 : List ℕ), (∀ x, x ∈ s1 ↔ x ∈ s2) →
    nmsLoop test1 order rem s1 = greedyStep test2 order rem s2 := by
  intro rem
  induction rem with
  | nil => intro s1 s2 _; rfl
  | cons i rem ih =>
      intro s1 s2 hs
      simp only [nmsLoop, greedyStep]
      by_cases hi : i ∈ s1
      · rw [if_pos hi, if_pos ((hs i).1 hi)]
        exact ih s1 s2 hs
      · rw [if_neg hi, if_neg (fun hc => hi ((hs i).2 hc))]
        congr 1
        apply ih
        intro x
        rw [mem_nmsMark, mem_markSpec, hts i x, hs x]

theorem iouSuppresses_eq_iou_gt (a b : Det) (t : ℚ) (ht : 0 ≤ t) :
    iouSuppresses a b t = decide (iou a b > t) := by
  simp only [iouSuppresses, iou]
  by_cases h : detArea a + detArea b - interArea a b = 0
  · simp [h, not_lt.2 ht]
  · simp [h]

/-- C5 counterexample: at the (degenerate) negative threshold `-1`, two
disjoint boxes (their IoU is 0) do NOT both survive: `0 > -1`, so the greedy
pass suppresses the lower-scored box and only index 0 is kept.  "Both survive
regardless of threshold" therefore fails as stated. -/
theorem nms_disjoint_negative_threshold :
    iou ⟨0, 0, 1, 1, 9/10⟩ ⟨2, 2, 3, 3, 8/10⟩ = 0 ∧
    nonMaximumSuppression [⟨0, 0, 1, 1, 9/10⟩, ⟨2, 2, 3, 3, 8/10⟩] (-1) = [0] := by
  constructor
  · norm_num [iou, interArea, detArea]
  · norm_num [nonMaximumSuppression, sortDesc, insertDesc, nmsLoop, nmsMark,
      iouSuppresses, interArea, detArea, List.range_succ]

/-- C5 amended: for every detection list and every IoU threshold `≥ 0`,
`nonMaximumSuppression` returns exactly the indices of classic greedy NMS
(descending stable score order, keep unsuppressed, suppress any other
not-yet-suppressed index with IoU strictly above the threshold); two identical
boxes with scores 0.9 and 0.8 at threshold 0.4 leave only the 0.9 box; two
disjoint boxes both survive for any threshold `≥ 0`. -/
theorem nonMaximumSuppression_eq_greedy :
    (∀ (dets : List Det) (t : ℚ), 0 ≤ t →
      nonMaximumSuppression dets t = greedyNMS dets t) ∧
    nonMaximumSuppression [⟨0, 0, 1, 1, 9/10⟩, ⟨0, 0, 1, 1, 8/10⟩] (2/5) = [0] ∧
    (∀ t : ℚ, 0 ≤ t →
      nonMaximumSuppression [⟨0, 0, 1, 1, 9/10⟩, ⟨2, 2, 3, 3, 8/10⟩] t = [0, 1]) := by
  refine ⟨?_, ?_, ?_⟩
  · intro dets t ht
    simp only [nonMaximumSuppression, greedyNMS]
    exact nmsLoop_eq_greedyStep _ _
      (fun i j => iouSuppresses_eq_iou_gt _ _ t ht) _ _ _ _ (fun x => Iff.rfl)
  · norm_num [nonMaximumSuppression, sortDesc, insertDesc, nmsLoop, nmsMark,
      iouSuppresses, interArea, detArea, List.range_succ]
  · intro t ht
    norm_num [nonMaximumSuppression, sortDesc, insertDesc, nmsLoop, nmsMark,
      iouSuppresses, interArea, detArea, List.range_succ, not_lt.2 ht]

theorem nonMaximumSuppression_eq_greedy_witness :
    nonMaximumSuppression [⟨0, 0, 1, 1, (1 : ℚ)⟩] (1/2) =
      greedyNMS [⟨0, 0, 1, 1, (1 : ℚ)⟩] (1/2) ∧
    nonMaximumSuppression [⟨0, 0, 1, 1, 9/10⟩, ⟨2, 2, 3, 3, 8/10⟩] 0 = [0, 1] :=
  ⟨nonMaximumSuppression_eq_greedy.1 [⟨0, 0, 1, 1, (1 : ℚ)⟩] (1/2) (by norm_num),
   nonMaximumSuppression_eq_greedy.2.2 0 le_rfl⟩

/-- C6 counterexample: a zero-area box CAN be suppressed by the IoU test — its
IoU against a positive-area box is 0, and at a negative threshold `0 > t`
holds, so it is suppressed; "never suppressed by the IoU test" fails as
stated (and the division is not guarded in the source at all). -/
theorem nms_zero_area_suppressed :
    detArea ⟨5, 5, 5, 6, 8/10⟩ = 0 ∧
    nonMaximumSuppression [⟨0, 0, 1, 1, 9/10⟩, ⟨5, 5, 5, 6, 8/10⟩] (-1) = [0] := by
  constructor
  · norm_num [detArea]
  · norm_num [nonMaximumSuppression, sortDesc, insertDesc, nmsLoop, nmsMark,
      iouSuppresses, interArea, detArea, List.range_succ]

/-- C6 amended: the source performs the shared-area division unguarded; when
the union area is zero the intersection is zero as well, so the JS quotient is
`0/0 = NaN` and `NaN > threshold` is false — such a pair never triggers
suppression, for any threshold.  A zero-area box has zero intersection with
every box, so for any threshold `≥ 0` it is never suppressed by the IoU test
(at negative thresholds it can be, see the counterexample). -/
theorem iouSuppresses_degenerate :
    (∀ (a b : Det) (t : ℚ), detArea a + detArea b - interArea a b = 0 →
      interArea a b = 0 ∧ iouSuppresses a b t = false) ∧
    (∀ (a b : Det) (t : ℚ), 0 ≤ t → detArea b = 0 →
      iouSuppresses a b t = false) := by
  constructor
  · intro a b t h
    refine ⟨interArea_eq_zero_of_denom_eq_zero a b h, ?_⟩
    simp only [iouSuppresses, h, if_pos]
  · intro a b t ht hb
    have hz : b.x2 = b.x1 ∨ b.y2 = b.y1 := by
      rcases mul_eq_zero.1 hb with h | h
      · exact Or.inl (sub_eq_zero.1 h)
      · exact Or.inr (sub_eq_zero.1 h)
    have hinter : interArea a b = 0 := by
      rcases hz with h | h
      · have hle : min a.x2 b.x2 - max a.x1 b.x1 ≤ 0 :=
          sub_nonpos.2 ((min_le_right _ _).trans (h.le.trans (le_max_right _ _)))
        rw [interArea, max_eq_left hle, zero_mul]
      · have hle : min a.y2 b.y2 - max a.y1 b.y1 ≤ 0 :=
          sub_nonpos.2 ((min_le_right _ _).trans (h.le.trans (le_max_right _ _)))
        rw [interArea, max_eq_left hle, mul_zero]
    simp only [iouSuppresses, hinter]
    split
    · rfl
    · simp [not_lt.2 ht]

theorem iouSuppresses_degenerate_witness :
    (interArea ⟨0, 0, 0, 1, 0⟩ ⟨0, 0, 0, 1, 0⟩ = 0 ∧
      iouSuppresses ⟨0, 0, 0, 1, 0⟩ ⟨0, 0, 0, 1, 0⟩ (1/2) = false) ∧
    iouSuppresses ⟨0, 0, 1, 1, 0⟩ ⟨5, 5, 5, 6, 0⟩ 0 = false :=
  ⟨iouSuppresses_degenerate.1 ⟨0, 0, 0, 1, 0⟩ ⟨0, 0, 0, 1, 0⟩ (1/2)
      (by norm_num [detArea, interArea]),
   iouSuppresses_degenerate.2 ⟨0, 0, 1, 1, 0⟩ ⟨5, 5, 5, 6, 0⟩ 0 le_rfl
      (by norm_num [detArea])⟩

theorem findLargestLoop_of_all_le :
    ∀ (l : List ℚ) (i bestIdx : ℕ) (bestArea : ℚ),
    (∀ a ∈ l, a ≤ bestArea) → findLargestLoop l i bestIdx bestArea = bestIdx := by
  intro l
  induction l with
  | nil => intro i bI bA _; rfl
  | cons a l ih =>
      intro i bI bA h
      have ha : ¬ a > bA := not_lt.2 (h a (List.mem_cons_self a l))
      simp only [findLargestLoop, if_neg ha]
      exact ih (i + 1) bI bA (fun b hb => h b (List.mem_cons_of_mem a hb))

theorem findLargestLoop_spec :
    ∀ (l : List ℚ) (i bestIdx : ℕ) (bestArea : ℚ),
    (∃ a ∈ l, bestArea < a) →
    ∃ k, k < l.length ∧ findLargestLoop l i bestIdx bestArea = i + k ∧
      bestArea < l.getD k 0 ∧
      (∀ m, m < l.length → l.getD m 0 ≤ l.getD k 0) ∧
      (∀ m, m < k → l.getD m 0 < l.getD k 0) := by
  intro l
  induction l with
  | nil =>
      rintro i bI bA ⟨a, ha, _⟩
      simp at ha
  | cons a l ih =>
      intro i bI bA hex
      by_cases ha : bA < a
      · simp only [findLargestLoop, if_pos (show a > bA from ha)]
        by_cases hrest : ∃ b ∈ l, a < b
        · obtain ⟨k, hk, hr, hlt, hmax, hfirst⟩ := ih (i + 1) i a hrest
          refine ⟨k + 1, by simpa using Nat.succ_lt_succ hk, ?_, ?_, ?_, ?_⟩
          · rw [hr]; omega
          · simpa [List.getD_cons_succ] using ha.trans hlt
          · intro m hm
            cases m with
            | zero => simpa [List.getD_cons_zero, List.getD_cons_succ] using hlt.le
            | succ m =>
                simp only [List.getD_cons_succ]
                exact hmax m (by simpa using Nat.lt_of_succ_lt_succ hm)
          · intro m hm
            cases m with
            | zero => simpa [List.getD_cons_zero, List.getD_cons_succ] using hlt
            | succ m =>
                simp only [List.getD_cons_succ]
                exact hfirst m (Nat.lt_of_succ_lt_succ hm)
        · push_neg at hrest
          rw [findLargestLoop_of_all_le l (i + 1) i a hrest]
          refine ⟨0, by simp, by simp, by simpa [List.getD_cons_zero] using ha, ?_, ?_⟩
          · intro m hm
            cases m with
            | zero => simp
            | succ m =>
                simp only [List.getD_cons_succ, List.getD_cons_zero]
                have hmlen : m < l.length := by simpa using Nat.lt_of_succ_lt_succ hm
                have hmem : l.getD m 0 ∈ l := by
                  rw [List.getD_eq_getElem l 0 hmlen]
                  exact List.getElem_mem hmlen
                exact hrest _ hmem
          · intro m hm
            exact absurd hm (Nat.not_lt_zero m)
      · have hex2 : ∃ b ∈ l, bA < b := by
          obtain ⟨x, hx, hbx⟩ := hex
          rcases List.mem_cons.1 hx with rfl | hx2
          · exact absurd hbx ha
          · exact ⟨x, hx2, hbx⟩
        simp only [findLargestLoop, if_neg (show ¬ a > bA from ha)]
        obtain ⟨k, hk, hr, hlt, hmax, hfirst⟩ := ih (i + 1) bI bA hex2
        have hab : a ≤ bA := not_lt.1 ha
        refine ⟨k + 1, by simpa using Nat.succ_lt_succ hk, ?_, ?_, ?_, ?_⟩
        · rw [hr]; omega
        · simpa [List.getD_cons_succ] using hlt
        · intro m hm
          cases m with
          | zero => simpa [List.getD_cons_zero, List.getD_cons_succ] using hab.trans hlt.le
          | succ m =>
              simp only [List.getD_cons_succ]
              exact hmax m (by simpa using Nat.lt_of_succ_lt_succ hm)
        · intro m hm
          cases m with
          | zero => simpa [List.getD_cons_zero, List.getD_cons_succ] using lt_of_le_of_lt hab hlt
          | succ m =>
              simp only [List.getD_cons_succ]
              exact hfirst m (Nat.lt_of_succ_lt_succ hm)

/-- C9 counterexample: the scan initializes `largestArea = 0`, so with
(degenerate) non-positive areas the running maximum is never beaten and index
0 is returned even though a later survivor has strictly larger area: on areas
`[-2, -1]` the claim's selector would pick index 1, the code picks 0. -/
theorem detect_largest_negative_area :
    boxArea ⟨0, 0, -1, 2⟩ < boxArea ⟨0, 0, -1, 1⟩ ∧
    largestIdx ([⟨0, 0, -1, 2⟩, ⟨0, 0, -1, 1⟩].map boxArea) = 0 := by
  constructor
  · norm_num [boxArea]
  · norm_num [boxArea, largestIdx, findLargestLoop]

theorem getD_map_boxArea (boxes : List Box4) (k : ℕ) (hk : k < boxes.length) :
    (boxes.map boxArea).getD k 0 = boxArea (boxes.getD k ⟨0, 0, 0, 0⟩) := by
  rw [List.getD_eq_getElem _ _ (by simpa using hk), List.getD_eq_getElem _ _ hk,
    List.getElem_map]

/-- C9 amended: whenever every survivor has nonnegative area (always the case
for corner-ordered boxes, and in particular for all-positive areas as in the
claim's example), `detect`'s scan selects an index of maximal area and, among
ties, the first occurrence; on areas `[10, 50, 50]` it selects index 1; and
`multipleFaces = true` iff more than one detection survived NMS.  (With
negative areas the `largestArea = 0` initialization makes it fall back to
index 0, see the counterexample.) -/
theorem detect_selects_largest :
    (∀ (boxes : List Box4), (∀ b ∈ boxes, 0 ≤ boxArea b) → boxes ≠ [] →
      largestIdx (boxes.map boxArea) < boxes.length ∧
      (∀ k, k < boxes.length →
        boxArea (boxes.getD k ⟨0, 0, 0, 0⟩) ≤
          boxArea (boxes.getD (largestIdx (boxes.map boxArea)) ⟨0, 0, 0, 0⟩)) ∧
      (∀ k, k < largestIdx (boxes.map boxArea) →
        boxArea (boxes.getD k ⟨0, 0, 0, 0⟩) <
          boxArea (boxes.getD (largestIdx (boxes.map boxArea)) ⟨0, 0, 0, 0⟩))) ∧
    largestIdx [10, 50, 50] = 1 ∧
    (∀ n : ℕ, multipleFaces n = true ↔ 1 < n) := by
  refine ⟨?_, by norm_num [largestIdx, findLargestLoop], fun n => by simp [multipleFaces]⟩
  intro boxes hnn hne
  set l := boxes.map boxArea with hl
  have hlen : l.length = boxes.length := by simp [hl]
  have hlpos : 0 < boxes.length := List.length_pos.2 hne
  by_cases hex : ∃ a ∈ l, (0 : ℚ) < a
  · obtain ⟨k, hk, hr, _, hmax, hfirst⟩ := findLargestLoop_spec l 0 0 0 hex
    have hs : largestIdx l = k := by simpa using hr
    rw [hs]
    rw [hlen] at hk
    refine ⟨hk, ?_, ?_⟩
    · intro m hm
      have := hmax m (by rw [hlen]; exact hm)
      rwa [getD_map_boxArea boxes m hm, getD_map_boxArea boxes k hk] at this
    · intro m hm
      have := hfirst m hm
      have hmlt : m < boxes.length := lt_trans hm hk
      rwa [getD_map_boxArea boxes m hmlt, getD_map_boxArea boxes k hk] at this
  · push_neg at hex
    have hzero : largestIdx l = 0 := findLargestLoop_of_all_le l 0 0 0 hex
    rw [hzero]
    refine ⟨hlpos, ?_, ?_⟩
    · intro m hm
      have hm0 : (0 : ℕ) < boxes.length := hlpos
      have h1 : (l.getD m 0) ≤ 0 := by
        have hmem : l.getD m 0 ∈ l := by
          rw [List.getD_eq_getElem l 0 (by rw [hlen]; exact hm)]
          exact List.getElem_mem _
        exact hex _ hmem
      have h2 : 0 ≤ l.getD 0 0 := by
        rw [getD_map_boxArea boxes 0 hm0]
        exact hnn _ (by
          rw [List.getD_eq_getElem boxes ⟨0, 0, 0, 0⟩ hm0]
          exact List.getElem_mem _)
      have := h1.trans h2
      rwa [getD_map_boxArea boxes m hm, getD_map_boxArea boxes 0 hm0] at this
    · intro m hm
      exact absurd hm (Nat.not_lt_zero m)

theorem detect_selects_largest_witness :
    largestIdx ([(⟨0, 0, 1, 1⟩ : Box4)].map boxArea) < [(⟨0, 0, 1, 1⟩ : Box4)].length ∧
    (∀ k, k < [(⟨0, 0, 1, 1⟩ : Box4)].length →
      boxArea ([(⟨0, 0, 1, 1⟩ : Box4)].getD k ⟨0, 0, 0, 0⟩) ≤
        boxArea ([(⟨0, 0, 1, 1⟩ : Box4)].getD
          (largestIdx ([(⟨0, 0, 1, 1⟩ : Box4)].map boxArea)) ⟨0, 0, 0, 0⟩)) ∧
    (∀ k, k < largestIdx ([(⟨0, 0, 1, 1⟩ : Box4)].map boxArea) →
      boxArea ([(⟨0, 0, 1, 1⟩ : Box4)].getD k ⟨0, 0, 0, 0⟩) <
        boxArea ([(⟨0, 0, 1, 1⟩ : Box4)].getD
          (largestIdx ([(⟨0, 0, 1, 1⟩ : Box4)].map boxArea)) ⟨0, 0, 0, 0⟩)) :=
  detect_selects_largest.1 [⟨0, 0, 1, 1⟩]
    (by intro b hb; simp only [List.mem_singleton] at hb; subst hb; norm_num [boxArea])
    (by simp)

/-- C4 (code bug): on an uninitialized component (`sessionSet = false`,
i.e. null sessions) the "not initialized" guard never fires — the negation of
a truthy function object is always false — although `isInitialized()` would
have returned false; the call proceeds into preprocessing and only crashes
later with a TypeError when the null session is dereferenced in `inference`.
-/
theorem init_guard_never_fires :
    initGuardFires false = false ∧ isInitialized false = false ∧
    (∀ s : Bool, initGuardFires s = false) := by
  refine ⟨rfl, rfl, fun s => rfl⟩

theorem softmax_sum (mexp : ℚ → ℚ) (hexp : ∀ q : ℚ, 0 < mexp q) (v : Vec3) :
    (softmax mexp v).x0 + (softmax mexp v).x1 + (softmax mexp v).x2 = 1 := by
  simp only [softmax]
  have hs : 0 < mexp (v.x0 - max v.x0 (max v.x1 v.x2))
      + mexp (v.x1 - max v.x0 (max v.x1 v.x2))
      + mexp (v.x2 - max v.x0 (max v.x1 v.x2)) :=
    add_pos (add_pos (hexp _) (hexp _)) (hexp _)
  rw [div_add_div_same, div_add_div_same, div_self hs.ne']

/-- C10: for any two 3-way logit vectors (with `exp` positive, as `Math.exp`
is), the fused result satisfies `realness + fakeness = 1` exactly — hence
within `1e-5` of 1 — `real = true` iff the argmax of the averaged 3-way
probability vector is the real-class index 1 (strict-scan first-maximum
convention), and `score` is `realness` when real, `fakeness` otherwise. -/
theorem postprocess_fusion (mexp : ℚ → ℚ) (hexp : ∀ q : ℚ, 0 < mexp q)
    (l1 l2 : Vec3) :
    (postprocess mexp l1 l2).realness + (postprocess mexp l1 l2).fakeness = 1 ∧
    |(postprocess mexp l1 l2).realness + (postprocess mexp l1 l2).fakeness - 1|
        < 1 / 100000 ∧
    ((postprocess mexp l1 l2).real = true ↔
      (((softmax mexp l1).x0 + (softmax mexp l2).x0) / 2 <
          ((softmax mexp l1).x1 + (softmax mexp l2).x1) / 2 ∧
        ¬ ((softmax mexp l1).x1 + (softmax mexp l2).x1) / 2 <
          ((softmax mexp l1).x2 + (softmax mexp l2).x2) / 2)) ∧
    (postprocess mexp l1 l2).score =
      (if (postprocess mexp l1 l2).real = true
        then (postprocess mexp l1 l2).realness
        else (postprocess mexp l1 l2).fakeness) := by
  have hsum : (postprocess mexp l1 l2).realness + (postprocess mexp l1 l2).fakeness = 1 := by
    simp only [postprocess]
    have h1 := softmax_sum mexp hexp l1
    have h2 := softmax_sum mexp hexp l2
    field_simp
    linarith
  refine ⟨hsum, by rw [hsum]; norm_num, ?_, ?_⟩
  · simp only [postprocess]
    by_cases h01 : ((softmax mexp l1).x0 + (softmax mexp l2).x0) / 2 <
        ((softmax mexp l1).x1 + (softmax mexp l2).x1) / 2
    · by_cases h12 : ((softmax mexp l1).x1 + (softmax mexp l2).x1) / 2 <
          ((softmax mexp l1).x2 + (softmax mexp l2).x2) / 2
      · simp [h01, h12]
      · simp [h01, h12]
    · by_cases h02 : ((softmax mexp l1).x0 + (softmax mexp l2).x0) / 2 <
          ((softmax mexp l1).x2 + (softmax mexp l2).x2) / 2
      · simp [h01, h02]
      · simp [h01, h02]
  · rfl

theorem postprocess_fusion_witness :
    (postprocess (fun _ => 1) ⟨0, 0, 0⟩ ⟨0, 0, 0⟩).realness
        + (postprocess (fun _ => 1) ⟨0, 0, 0⟩ ⟨0, 0, 0⟩).fakeness = 1 ∧
    |(postprocess (fun _ => 1) ⟨0, 0, 0⟩ ⟨0, 0, 0⟩).realness
        + (postprocess (fun _ => 1) ⟨0, 0, 0⟩ ⟨0, 0, 0⟩).fakeness - 1|
        < 1 / 100000 ∧
    ((postprocess (fun _ => 1) ⟨0, 0, 0⟩ ⟨0, 0, 0⟩).real = true ↔
      (((softmax (fun _ => 1) ⟨0, 0, 0⟩).x0 + (softmax (fun _ => 1) ⟨0, 0, 0⟩).x0) / 2 <
          ((softmax (fun _ => 1) ⟨0, 0, 0⟩).x1 + (softmax (fun _ => 1) ⟨0, 0, 0⟩).x1) / 2 ∧
        ¬ ((softmax (fun _ => 1) ⟨0, 0, 0⟩).x1 + (softmax (fun _ => 1) ⟨0, 0, 0⟩).x1) / 2 <
          ((softmax (fun _ => 1) ⟨0, 0, 0⟩).x2 + (softmax (fun _ => 1) ⟨0, 0, 0⟩).x2) / 2)) ∧
    (postprocess (fun _ => 1) ⟨0, 0, 0⟩ ⟨0, 0, 0⟩).score =
      (if (postprocess (fun _ => 1) ⟨0, 0, 0⟩ ⟨0, 0, 0⟩).real = true
        then (postprocess (fun _ => 1) ⟨0, 0, 0⟩ ⟨0, 0, 0⟩).realness
        else (postprocess (fun _ => 1) ⟨0, 0, 0⟩ ⟨0, 0, 0⟩).fakeness) :=
  postprocess_fusion (fun _ => 1) (fun _ => one_pos) ⟨0, 0, 0⟩ ⟨0, 0, 0⟩
